import Mathlib

/-!
Verification development for the chess database-creation pipeline
(`database_creator.py`).

Strings are embedded as lists of character codes (`List Nat`, ASCII); the
characters actually used by the program are ASCII, where Python's
`str.swapcase` acts per character exactly as `swapcase` below.  Python
dictionaries are embedded as insertion-ordered association lists.  Chess
moves, board objects and canonical keys are abstract type parameters,
since the rules engine is an external collaborator.
-/

/-- Per-character case swap: ASCII model of Python's `str.swapcase`
applied to one character code. -/
def swapcase (c : Nat) : Nat :=
  if 65 ≤ c ∧ c ≤ 90 then c + 32
  else if 97 ≤ c ∧ c ≤ 122 then c - 32
  else c

theorem swapcase_swapcase (c : Nat) : swapcase (swapcase c) = c := by
  unfold swapcase
  split_ifs <;> omega

/-- The selected textual fields of a FEN string, as produced by
`board.fen().split()`: field 0 is the piece placement (given here as its
list of rank rows, i.e. the result of splitting on the slash), field 1
the side to move, field 2 the castling rights, field 3 the en-passant
target.  All text is lists of character codes. -/
structure FenFields where
  placement : List (List Nat)
  turn : Nat
  rights : List Nat
  ep : List Nat
deriving DecidableEq

/-- Character codes used by the canonicalizer: 'w' = 119, 'b' = 98,
'K' = 75, 'Q' = 81, 'k' = 107, 'q' = 113, the dash = 45. -/
def castlingChars : List Nat := [75, 81, 107, 113, 45]

/-- The castling-rights recomputation of `black_fen_to_white` /
`make_fen_white`: keep each of 'K','Q','k','q','-' (in that order) iff
it occurs in the case-swapped original rights string. -/
def bfwRights (r : List Nat) : List Nat :=
  castlingChars.filter (fun c => c ∈ r.map swapcase)

/-- The en-passant adjustment of `black_fen_to_white` / `make_fen_white`:
a '-' target is kept; otherwise the file character is kept and the rank
digit d becomes 9 - d (digit codes: value = code - 48). -/
def bfwEp (e : List Nat) : List Nat :=
  if e = [45] then e else [e.getD 0 0, 48 + (9 - (e.getD 1 0 - 48))]

/-- Embedding of `black_fen_to_white` (lines 80-94) restricted to the
four textual fields it rewrites: reverse the rank rows swapping the case
of every character, force the side to move to 'w', recompute the rights
via `bfwRights`, adjust the en-passant target via `bfwEp`. -/
def black_fen_to_white (f : FenFields) : FenFields where
  placement := (f.placement.map (fun row => row.map swapcase)).reverse
  turn := 119
  rights := bfwRights f.rights
  ep := bfwEp f.ep

/-- Embedding of `make_fen_white` (lines 456-473): a position whose own
side-to-move field is 'w' passes through unchanged, otherwise the
Black-to-move transformation is applied. -/
def make_fen_white (f : FenFields) : FenFields :=
  if f.turn = 119 then f else black_fen_to_white f

/-- The sixteen well-formed castling-rights strings: the dash alone, or a
nonempty subsequence of "KQkq" in canonical order. -/
def canonicalRightsStrings : List (List Nat) :=
  [[45],
   [75], [81], [107], [113],
   [75, 81], [75, 107], [75, 113], [81, 107], [81, 113], [107, 113],
   [75, 81, 107], [75, 81, 113], [75, 107, 113], [81, 107, 113],
   [75, 81, 107, 113]]

/-- Well-formed en-passant field: the dash, or a two-character square
whose rank digit is '1'..'8' (codes 49..56). -/
def wfEp (e : List Nat) : Prop :=
  e = [45] ∨ (e.length = 2 ∧ 49 ≤ e.getD 1 0 ∧ e.getD 1 0 ≤ 56)

instance wfEp_decidable (e : List Nat) : Decidable (wfEp e) := by
  unfold wfEp
  infer_instance

/-- The castling-rights field the claim describes: keep each of
'K','Q','k','q','-' iff it is present case-insensitively in the original
rights string. -/
def rightsCaseInsensitive (r : List Nat) : List Nat :=
  castlingChars.filter (fun c => c ∈ r ∨ swapcase c ∈ r)

/-- Embedding of `switch_from_blacks_move` (lines 268-279): reverse the
order of the eight 8-character rows of a 64-character board string, then
swap the case of every character. -/
def switch_from_blacks_move (s : List Nat) : List Nat :=
  (((List.range 8).map (fun j => (s.drop (8 * j)).take 8)).reverse.flatten).map swapcase

/-! ### Splitter (`data_writer_creator.writer`, lines 284-298)

`number_of_boards` is computed once up front; each destination then
draws `int(math.floor(ratio * number_of_boards))` consecutive entries
from the iterator over the aggregated mapping.  The ratios are embedded
as exact rationals. -/

/-- The slice sizes: `floor(ratio_i * N)` for each destination, clamped
to zero from below exactly as Python's `range` treats a negative bound. -/
def writerSizes (ratios : List ℚ) (n : Nat) : List Nat :=
  ratios.map (fun r => (⌊r * (n : ℚ)⌋).toNat)

/-- The entries each destination receives: destination `i` takes the
next `floor(ratio_i * n)` entries of the remaining corpus, in iteration
order. -/
def writerAlloc (n : Nat) : List ℚ → List α → List (List α)
  | [], _ => []
  | r :: rs, rem =>
    rem.take (⌊r * (n : ℚ)⌋).toNat :: writerAlloc n rs (rem.drop (⌊r * (n : ℚ)⌋).toNat)

/-! ### Triplet expansion (`data_writer_creator.writer`, lines 300-328)

Per corpus entry the writer collects every move whose occurrence count
is maximal, builds one anchor+positive prefix per such move, and then,
for every move produced by the comparison-move generator, writes one
output line per prefix.  A `BoardInfo.moves` dictionary is embedded as
an association list of (move, count) pairs with distinct keys. -/

/-- `max(cur_data.moves.values())`: the highest occurrence count of the
entry (Python's `max` over the nonempty value view; 0 on the empty list,
which cannot occur for a stored entry). -/
def maxMoveCount {M : Type} (movesDict : List (M × Nat)) : Nat :=
  (movesDict.map Prod.snd).foldr max 0

/-- `most_chosen_moves`: every move whose count equals the maximum
(ties are all kept). -/
def mostChosenMoves {M : Type} (movesDict : List (M × Nat)) : List M :=
  (movesDict.filter (fun p => p.2 = maxMoveCount movesDict)).map Prod.fst

/-- The output lines of one triplet entry: `anchorRep` is the encoded
current board, `pushRep m` the (already case-and-rank switched) encoding
of the board after move `m`, `negatives` the moves yielded by the
comparison-move generator; code 10 is the newline each record ends
with.  The outer loop runs over the negatives, the inner one over the
anchor+positive prefixes. -/
def tripletLines {M : Type} (anchorRep : List Nat) (pushRep : M → List Nat)
    (movesDict : List (M × Nat)) (negatives : List M) : List (List Nat) :=
  negatives.flatMap (fun nm =>
    ((mostChosenMoves movesDict).map (fun mv => anchorRep ++ pushRep mv)).map
      (fun d => d ++ pushRep nm ++ [10]))

/-! ### Aggregator (`create_database_from_pgn`, lines 97-149)

A game is a list of moves; the walked position after a prefix of moves
is a function of that prefix alone (the board is reset between games),
so boards are embedded as move prefixes.  `keyOf prefix` is the
canonical key the loop stores for the position reached by `prefix`
(including the Black-to-White switch), and each pre-filter takes the
current position (prefix) and the move about to be played. -/

/-- The (position, move) pairs of one game in traversal order: the move
`m` of each ply is paired with the prefix of moves made before it. -/
def plies {M : Type} (pre : List M) : List M → List (List M × M)
  | [] => []
  | mv :: rest => (pre, mv) :: plies (pre ++ [mv]) rest

/-- One pass of the per-game loop: returns the list of non-vetoed
(key, move) observations and the list of positions the walk visits.
The move is pushed (the prefix grows) whether or not a filter vetoed
the ply, exactly as `the_board.push(move)` sits outside the veto test. -/
def walkGame {M K : Type} (keyOf : List M → K) (filters : List (List M → M → Bool)) :
    List M → List M → List (K × M) × List (List M)
  | pre, [] => ([], [pre])
  | pre, mv :: rest =>
    let res := walkGame keyOf filters (pre ++ [mv]) rest
    (if filters.any (fun fl => fl pre mv) then res.1 else (keyOf pre, mv) :: res.1,
     pre :: res.2)

/-- `BoardInfo.update`: increment the count of `m`, or append it with
count 1 on first occurrence (Python dict insertion order). -/
def updateInner {M : Type} [DecidableEq M] (m : M) : List (M × Nat) → List (M × Nat)
  | [] => [(m, 1)]
  | (m', c) :: rest =>
    if m' = m then (m', c + 1) :: rest else (m', c) :: updateInner m rest

/-- One aggregation step on the `configs` dictionary: create the key
with a fresh `BoardInfo` holding `{m: 1}`, or update the existing one. -/
def updateConfigs {K M : Type} [DecidableEq K] [DecidableEq M] (k : K) (m : M) :
    List (K × List (M × Nat)) → List (K × List (M × Nat))
  | [] => [(k, [(m, 1)])]
  | (k', info) :: rest =>
    if k' = k then (k', updateInner m info) :: rest
    else (k', info) :: updateConfigs k m rest

/-- The stored count of move `m` in a `BoardInfo` association list. -/
def innerCount {M : Type} [DecidableEq M] (m : M) : List (M × Nat) → Nat
  | [] => 0
  | (m', c) :: rest => if m' = m then c else innerCount m rest

/-- The stored count of (key, move) in the aggregated mapping. -/
def configCount {K M : Type} [DecidableEq K] [DecidableEq M] (k : K) (m : M) :
    List (K × List (M × Nat)) → Nat
  | [] => 0
  | (k', info) :: rest => if k' = k then innerCount m info else configCount k m rest

/-- How many times the pair (k, m) occurs in a list of observations. -/
def countObs {K M : Type} [DecidableEq K] [DecidableEq M] (k : K) (m : M) :
    List (K × M) → Nat
  | [] => 0
  | (k', m') :: rest => (if k' = k ∧ m' = m then 1 else 0) + countObs k m rest

/-- Aggregating a stream of observations into the `configs` dictionary,
starting from the empty dictionary. -/
def aggregate {K M : Type} [DecidableEq K] [DecidableEq M] (obs : List (K × M)) :
    List (K × List (M × Nat)) :=
  obs.foldl (fun cfg p => updateConfigs p.1 p.2 cfg) []

/-- The whole multi-file run: each file is a list of games, the files
are processed in order, every game is walked from the fresh starting
position, and all non-vetoed observations feed one shared dictionary. -/
def aggregateFiles {K M : Type} [DecidableEq K] [DecidableEq M]
    (keyOf : List M → K) (filters : List (List M → M → Bool))
    (files : List (List (List M))) : List (K × List (M × Nat)) :=
  aggregate ((files.flatten.map (fun g => (walkGame keyOf filters [] g).1)).flatten)

/-! ### Post-collection material filter (`n_man_filter_creator`, lines 201-216) -/

/-- The piece characters counted by `n_man_filter_creator`:
"KQRBNPkqrbnp" as character codes. -/
def pieceChars : List Nat := [75, 81, 82, 66, 78, 80, 107, 113, 114, 98, 110, 112]

/-- The loop body of the returned filter: walk the key text, counting
piece characters, returning `false` as soon as the counter exceeds `n`,
and `true` if the text is exhausted first. -/
def nManFilterLoop (n : Nat) : List Nat → Nat → Bool
  | [], _ => true
  | c :: rest, counter =>
    if c ∈ pieceChars then
      if counter + 1 > n then false else nManFilterLoop n rest (counter + 1)
    else nManFilterLoop n rest counter

/-- The filter returned by `n_man_filter_creator(n)`, applied to a key
string (the `data` argument is unused by the source). -/
def n_man_filter (n : Nat) (s : List Nat) : Bool := nManFilterLoop n s 0

/-- The number of piece characters in a key string. -/
def pieceCount (s : List Nat) : Nat := (s.filter (fun c => c ∈ pieceChars)).length

/-! ### Scored child-position pipeline (`lines_to_serialized_example`,
lines 454-497)

Boards, moves and children are abstract; `legalMoves` is the rules
engine's move enumeration and `push` its `copy_push`.  `np.cumsum`
records, per source line, the running total of children contributed, and
`np.split` cuts the flat score array at those boundaries with Python
slice semantics (clamping, never failing). -/

/-- `np.cumsum` starting from `s`. -/
def cumsumFrom (s : Nat) : List Nat → List Nat
  | [] => []
  | a :: rest => (s + a) :: cumsumFrom (s + a) rest

/-- `np.split` with an explicit previous boundary: slices are
`xs[prev:i1], xs[i1:i2], ..., xs[ik:]`. -/
def npSplitAux (xs : List α) (prev : Nat) : List Nat → List (List α)
  | [] => [xs.drop prev]
  | i :: rest => (xs.take i).drop prev :: npSplitAux xs i rest

/-- `np.split(xs, idxs)` for an index array `idxs`. -/
def npSplit (xs : List α) (idxs : List Nat) : List (List α) := npSplitAux xs 0 idxs

/-- The flat sequence of child positions of a batch, in source-line
order: every legal move of every board, applied via `push`. -/
def childPositions {B Mv C : Type} (legalMoves : B → List Mv) (push : B → Mv → C)
    (boards : List B) : List C :=
  (boards.map (fun b => (legalMoves b).map (push b))).flatten

/-- The per-line legal-move counts of a batch. -/
def moveCounts {B Mv : Type} (legalMoves : B → List Mv) (boards : List B) : List Nat :=
  boards.map (fun b => (legalMoves b).length)

/-- Splitting the flat score sequence back into per-source-line slices
at the recorded cumulative boundaries (`np.split(scores, lengths[:-1])`). -/
def scoreSlices {S : Type} (scores : List S) (counts : List Nat) : List (List S) :=
  npSplit scores (cumsumFrom 0 counts).dropLast

/-! ### Batch submission loop
(`generate_database_with_child_values_tf_records`, lines 500-522)

The reader appends each line to `lines`, and submits the accumulated
list as one batch when `index % batch_size == 0 and index != 0`; the
accumulator still holding the trailing lines when the file ends is never
submitted. -/

/-- The submission loop: current line index, pending accumulator,
remaining lines; returns the list of submitted batches. -/
def submitLoop (bsz : Nat) : Nat → List α → List α → List (List α)
  | _, _, [] => []
  | i, pending, l :: rest =>
    if i % bsz = 0 ∧ i ≠ 0 then (pending ++ [l]) :: submitLoop bsz (i + 1) [] rest
    else submitLoop bsz (i + 1) (pending ++ [l]) rest

/-- The batches submitted for a given input file. -/
def submittedBatches (bsz : Nat) (ls : List α) : List (List α) :=
  submitLoop bsz 0 [] ls

/-! ## Theorems -/

/-- Helper: the effect of `switch_from_blacks_move` on a board string
presented as eight rows of eight characters. -/
theorem switch_rows (a b c d e f g h : List Nat)
    (ha : a.length = 8) (hb : b.length = 8) (hc : c.length = 8) (hd : d.length = 8)
    (he : e.length = 8) (hf : f.length = 8) (hg : g.length = 8) (hh : h.length = 8) :
    switch_from_blacks_move (a ++ (b ++ (c ++ (d ++ (e ++ (f ++ (g ++ h))))))) =
      h.map swapcase ++ (g.map swapcase ++ (f.map swapcase ++ (e.map swapcase ++
        (d.map swapcase ++ (c.map swapcase ++ (b.map swapcase ++ a.map swapcase)))))) := by
  have d1 : (a ++ (b ++ (c ++ (d ++ (e ++ (f ++ (g ++ h))))))).drop 8 =
      b ++ (c ++ (d ++ (e ++ (f ++ (g ++ h))))) := List.drop_left' ha
  have d2 : (a ++ (b ++ (c ++ (d ++ (e ++ (f ++ (g ++ h))))))).drop 16 =
      c ++ (d ++ (e ++ (f ++ (g ++ h)))) := by
    have step : (a ++ (b ++ (c ++ (d ++ (e ++ (f ++ (g ++ h))))))).drop 16 =
        ((a ++ (b ++ (c ++ (d ++ (e ++ (f ++ (g ++ h))))))).drop 8).drop 8 := by
      rw [List.drop_drop]
    rw [step, d1, List.drop_left' hb]
  have d3 : (a ++ (b ++ (c ++ (d ++ (e ++ (f ++ (g ++ h))))))).drop 24 =
      d ++ (e ++ (f ++ (g ++ h))) := by
    have step : (a ++ (b ++ (c ++ (d ++ (e ++ (f ++ (g ++ h))))))).drop 24 =
        ((a ++ (b ++ (c ++ (d ++ (e ++ (f ++ (g ++ h))))))).drop 16).drop 8 := by
      rw [List.drop_drop]
    rw [step, d2, List.drop_left' hc]
  have d4 : (a ++ (b ++ (c ++ (d ++ (e ++ (f ++ (g ++ h))))))).drop 32 =
      e ++ (f ++ (g ++ h)) := by
    have step : (a ++ (b ++ (c ++ (d ++ (e ++ (f ++ (g ++ h))))))).drop 32 =
        ((a ++ (b ++ (c ++ (d ++ (e ++ (f ++ (g ++ h))))))).drop 24).drop 8 := by
      rw [List.drop_drop]
    rw [step, d3, List.drop_left' hd]
  have d5 : (a ++ (b ++ (c ++ (d ++ (e ++ (f ++ (g ++ h))))))).drop 40 =
      f ++ (g ++ h) := by
    have step : (a ++ (b ++ (c ++ (d ++ (e ++ (f ++ (g ++ h))))))).drop 40 =
        ((a ++ (b ++ (c ++ (d ++ (e ++ (f ++ (g ++ h))))))).drop 32).drop 8 := by
      rw [List.drop_drop]
    rw [step, d4, List.drop_left' he]
  have d6 : (a ++ (b ++ (c ++ (d ++ (e ++ (f ++ (g ++ h))))))).drop 48 = g ++ h := by
    have step : (a ++ (b ++ (c ++ (d ++ (e ++ (f ++ (g ++ h))))))).drop 48 =
        ((a ++ (b ++ (c ++ (d ++ (e ++ (f ++ (g ++ h))))))).drop 40).drop 8 := by
      rw [List.drop_drop]
    rw [step, d5, List.drop_left' hf]
  have d7 : (a ++ (b ++ (c ++ (d ++ (e ++ (f ++ (g ++ h))))))).drop 56 = h := by
    have step : (a ++ (b ++ (c ++ (d ++ (e ++ (f ++ (g ++ h))))))).drop 56 =
        ((a ++ (b ++ (c ++ (d ++ (e ++ (f ++ (g ++ h))))))).drop 48).drop 8 := by
      rw [List.drop_drop]
    rw [step, d6, List.drop_left' hg]
  have r7 : h.take 8 = h := by rw [← hh, List.take_length]
  unfold switch_from_blacks_move
  rw [show List.range 8 = [0, 1, 2, 3, 4, 5, 6, 7] from rfl]
  simp only [List.map_cons, List.map_nil]
  rw [show 8 * 0 = 0 from rfl, show 8 * 1 = 8 from rfl, show 8 * 2 = 16 from rfl,
    show 8 * 3 = 24 from rfl, show 8 * 4 = 32 from rfl, show 8 * 5 = 40 from rfl,
    show 8 * 6 = 48 from rfl, show 8 * 7 = 56 from rfl]
  rw [List.drop_zero, List.take_left' ha, d1, List.take_left' hb, d2, List.take_left' hc,
    d3, List.take_left' hd, d4, List.take_left' he, d5, List.take_left' hf,
    d6, List.take_left' hg, d7, r7]
  simp [List.map_append, List.append_assoc]

/-- C10: the board-string side switcher is an involution on every
64-character board string: reversing the eight rows and swapping the
case of every character are each self-inverse and commute. -/
theorem switch_from_blacks_move_involutive (s : List Nat) (hs : s.length = 64) :
    switch_from_blacks_move (switch_from_blacks_move s) = s := by
  have e1 : s = s.take 8 ++ s.drop 8 := (List.take_append_drop 8 s).symm
  have e2 : s.drop 8 = (s.drop 8).take 8 ++ s.drop 16 := by
    have := (List.take_append_drop 8 (s.drop 8)).symm
    rwa [List.drop_drop] at this
  have e3 : s.drop 16 = (s.drop 16).take 8 ++ s.drop 24 := by
    have := (List.take_append_drop 8 (s.drop 16)).symm
    rwa [List.drop_drop] at this
  have e4 : s.drop 24 = (s.drop 24).take 8 ++ s.drop 32 := by
    have := (List.take_append_drop 8 (s.drop 24)).symm
    rwa [List.drop_drop] at this
  have e5 : s.drop 32 = (s.drop 32).take 8 ++ s.drop 40 := by
    have := (List.take_append_drop 8 (s.drop 32)).symm
    rwa [List.drop_drop] at this
  have e6 : s.drop 40 = (s.drop 40).take 8 ++ s.drop 48 := by
    have := (List.take_append_drop 8 (s.drop 40)).symm
    rwa [List.drop_drop] at this
  have e7 : s.drop 48 = (s.drop 48).take 8 ++ s.drop 56 := by
    have := (List.take_append_drop 8 (s.drop 48)).symm
    rwa [List.drop_drop] at this
  have key : s = s.take 8 ++ ((s.drop 8).take 8 ++ ((s.drop 16).take 8 ++
      ((s.drop 24).take 8 ++ ((s.drop 32).take 8 ++ ((s.drop 40).take 8 ++
        ((s.drop 48).take 8 ++ s.drop 56)))))) := by
    conv_lhs => rw [e1, e2, e3, e4, e5, e6, e7]
  have l1 : (s.take 8).length = 8 := by rw [List.length_take, hs]; decide
  have l2 : ((s.drop 8).take 8).length = 8 := by
    rw [List.length_take, List.length_drop, hs]; decide
  have l3 : ((s.drop 16).take 8).length = 8 := by
    rw [List.length_take, List.length_drop, hs]; decide
  have l4 : ((s.drop 24).take 8).length = 8 := by
    rw [List.length_take, List.length_drop, hs]; decide
  have l5 : ((s.drop 32).take 8).length = 8 := by
    rw [List.length_take, List.length_drop, hs]; decide
  have l6 : ((s.drop 40).take 8).length = 8 := by
    rw [List.length_take, List.length_drop, hs]; decide
  have l7 : ((s.drop 48).take 8).length = 8 := by
    rw [List.length_take, List.length_drop, hs]; decide
  have l8 : (s.drop 56).length = 8 := by rw [List.length_drop, hs]
  rw [key, switch_rows _ _ _ _ _ _ _ _ l1 l2 l3 l4 l5 l6 l7 l8,
    switch_rows _ _ _ _ _ _ _ _
      (by rw [List.length_map]; exact l8) (by rw [List.length_map]; exact l7)
      (by rw [List.length_map]; exact l6) (by rw [List.length_map]; exact l5)
      (by rw [List.length_map]; exact l4) (by rw [List.length_map]; exact l3)
      (by rw [List.length_map]; exact l2) (by rw [List.length_map]; exact l1)]
  simp [List.map_map, Function.comp_def, swapcase_swapcase]

/-- C10 witness: the involution evaluated on a concrete 64-character
string. -/
theorem switch_from_blacks_move_involutive_witness :
    (List.range 64).length = 64 ∧
      switch_from_blacks_move (switch_from_blacks_move (List.range 64)) = List.range 64 :=
  ⟨by decide, switch_from_blacks_move_involutive (List.range 64) (by decide)⟩

/-- Helper: membership in a case-swapped string is membership of the
case-swapped character. -/
theorem mem_map_swapcase (c : Nat) (r : List Nat) :
    c ∈ r.map swapcase ↔ swapcase c ∈ r := by
  constructor
  · intro h
    obtain ⟨d, hd, hdc⟩ := List.mem_map.mp h
    rw [← hdc, swapcase_swapcase]
    exact hd
  · intro h
    exact List.mem_map.mpr ⟨swapcase c, h, swapcase_swapcase c⟩

/-- Helper: the recomputed castling rights keep exactly the characters
whose case-swapped counterpart occurs in the original rights string. -/
theorem bfwRights_filter (r : List Nat) :
    bfwRights r = castlingChars.filter (fun c => swapcase c ∈ r) := by
  unfold bfwRights
  apply List.filter_congr
  intro x _
  rw [decide_eq_decide]
  exact mem_map_swapcase x r

/-- Helper: on the sixteen well-formed castling-rights strings the
rights recomputation is an involution. -/
theorem bfwRights_bfwRights (r : List Nat) (hr : r ∈ canonicalRightsStrings) :
    bfwRights (bfwRights r) = r := by
  fin_cases hr <;> decide

/-- Helper: the en-passant adjustment on a two-character square keeps
the file and sends the rank-digit code y to 48 + (9 - (y - 48)). -/
theorem bfwEp_pair (x y : Nat) : bfwEp [x, y] = [x, 48 + (9 - (y - 48))] := by
  rw [bfwEp, if_neg (by simp)]
  rfl

/-- Helper: on well-formed en-passant fields the adjustment is an
involution. -/
theorem bfwEp_bfwEp (e : List Nat) (he : wfEp e) : bfwEp (bfwEp e) = e := by
  rcases he with he | ⟨hlen, h1, h2⟩
  · rw [he]
    rfl
  · obtain ⟨x, y, rfl⟩ : ∃ x y, e = [x, y] := by
      match e, hlen with
      | [x, y], _ => exact ⟨x, y, rfl⟩
    rw [show ([x, y] : List Nat).getD 1 0 = y from rfl] at h1 h2
    rw [bfwEp_pair, bfwEp_pair]
    have harith : 48 + (9 - (48 + (9 - (y - 48)) - 48)) = y := by omega
    rw [harith]

/-- C1 counterexample: for the well-formed Black-to-move position with
castling rights "K", the claim's case-insensitive description would keep
'K' (code 75), but the code keeps exactly "k" (code 107): the rights are
case-swapped, not filtered case-insensitively. -/
theorem make_fen_white_claim_counterexample :
    (FenFields.mk [[107, 107]] 98 [75] [45]).rights ∈ canonicalRightsStrings ∧
    rightsCaseInsensitive (FenFields.mk [[107, 107]] 98 [75] [45]).rights = [75, 107] ∧
    (make_fen_white (FenFields.mk [[107, 107]] 98 [75] [45])).rights = [107] ∧
    75 ∉ (make_fen_white (FenFields.mk [[107, 107]] 98 [75] [45])).rights := by
  decide

/-- C1 (amended): on a White-to-move position `make_fen_white` passes
every field through unchanged; on a Black-to-move position it reverses
the rank rows swapping the case of every piece letter, forces the
side-to-move to 'w', keeps exactly those of 'K','Q','k','q','-' (in that
fixed order) whose case-swapped counterpart is present in the original
rights string, and keeps the file of a non-'-' en-passant target while
replacing its rank digit r by 9 - r (code 105 - c is the digit code of
9 - (c - 48)). -/
theorem make_fen_white_fields (f : FenFields) (he : wfEp f.ep) :
    (f.turn = 119 → make_fen_white f = f) ∧
    (f.turn ≠ 119 →
      (make_fen_white f).placement =
        (f.placement.map (fun row => row.map swapcase)).reverse ∧
      (make_fen_white f).turn = 119 ∧
      (make_fen_white f).rights = castlingChars.filter (fun c => swapcase c ∈ f.rights) ∧
      (f.ep = [45] → (make_fen_white f).ep = [45]) ∧
      (f.ep ≠ [45] →
        (make_fen_white f).ep = [f.ep.getD 0 0, 105 - f.ep.getD 1 0])) := by
  constructor
  · intro h
    simp [make_fen_white, h]
  · intro h
    rw [make_fen_white, if_neg h]
    refine ⟨rfl, rfl, bfwRights_filter f.rights, ?_, ?_⟩
    · intro h45
      show bfwEp f.ep = [45]
      rw [h45]
      rfl
    · intro h45
      rcases he with he | ⟨hlen, h1, h2⟩
      · exact absurd he h45
      obtain ⟨x, y, hep⟩ : ∃ x y, f.ep = [x, y] := by
        match f.ep, hlen with
        | [x, y], _ => exact ⟨x, y, rfl⟩
      show bfwEp f.ep = [f.ep.getD 0 0, 105 - f.ep.getD 1 0]
      rw [hep] at h1 h2 ⊢
      rw [show ([x, y] : List Nat).getD 1 0 = y from rfl] at h1 h2
      rw [bfwEp_pair,
        show ([x, y] : List Nat).getD 0 0 = x from rfl,
        show ([x, y] : List Nat).getD 1 0 = y from rfl]
      have harith : 48 + (9 - (y - 48)) = 105 - y := by omega
      rw [harith]

/-- C1 witness: the amended theorem evaluated on the Black-to-move
position with rights "Kq" and en-passant square e6: the rights become
"Qk" and the target becomes e3. -/
theorem make_fen_white_fields_witness :
    wfEp (FenFields.mk [[107]] 98 [75, 113] [101, 54]).ep ∧
    (make_fen_white (FenFields.mk [[107]] 98 [75, 113] [101, 54])).rights = [81, 107] ∧
    (make_fen_white (FenFields.mk [[107]] 98 [75, 113] [101, 54])).ep = [101, 51] := by
  have h := make_fen_white_fields (FenFields.mk [[107]] 98 [75, 113] [101, 54]) (by decide)
  refine ⟨by decide, ?_, ?_⟩
  · exact ((h.2 (by decide)).2.2.1).trans (by decide)
  · exact ((h.2 (by decide)).2.2.2.2 (by decide)).trans (by decide)

/-- C9: on well-formed Black-to-move fields the mirroring transformation
is an involution: applying the Black-to-move rewrite twice reproduces
the original piece placement, castling rights and en-passant target. -/
theorem black_fen_to_white_involutive (f : FenFields)
    (hr : f.rights ∈ canonicalRightsStrings) (he : wfEp f.ep) (_ht : f.turn = 98) :
    (black_fen_to_white (black_fen_to_white f)).placement = f.placement ∧
    (black_fen_to_white (black_fen_to_white f)).rights = f.rights ∧
    (black_fen_to_white (black_fen_to_white f)).ep = f.ep := by
  refine ⟨?_, bfwRights_bfwRights f.rights hr, bfwEp_bfwEp f.ep he⟩
  simp [black_fen_to_white, List.map_reverse, List.reverse_reverse, List.map_map,
    Function.comp_def, swapcase_swapcase, List.map_id]

/-- C9 witness: the double mirror evaluated on the Black-to-move
position with full rights and en-passant square e6. -/
theorem black_fen_to_white_involutive_witness :
    (FenFields.mk [[114], [82]] 98 [75, 81, 107, 113] [101, 54]).rights ∈
        canonicalRightsStrings ∧
    wfEp (FenFields.mk [[114], [82]] 98 [75, 81, 107, 113] [101, 54]).ep ∧
    (black_fen_to_white (black_fen_to_white
        (FenFields.mk [[114], [82]] 98 [75, 81, 107, 113] [101, 54]))).placement =
      [[114], [82]] ∧
    (black_fen_to_white (black_fen_to_white
        (FenFields.mk [[114], [82]] 98 [75, 81, 107, 113] [101, 54]))).rights =
      [75, 81, 107, 113] ∧
    (black_fen_to_white (black_fen_to_white
        (FenFields.mk [[114], [82]] 98 [75, 81, 107, 113] [101, 54]))).ep =
      [101, 54] := by
  have h := black_fen_to_white_involutive
    (FenFields.mk [[114], [82]] 98 [75, 81, 107, 113] [101, 54])
    (by decide) (by decide) rfl
  exact ⟨by decide, by decide, h.1, h.2.1, h.2.2⟩

/-- Helper: concatenating the destination slices reproduces exactly the
first `sum of slice sizes` corpus entries, in order. -/
theorem writerAlloc_flatten {α : Type} :
    ∀ (ratios : List ℚ) (n : Nat) (l : List α),
      (writerAlloc n ratios l).flatten = l.take (writerSizes ratios n).sum := by
  intro ratios
  induction ratios with
  | nil =>
    intro n l
    simp [writerAlloc, writerSizes]
  | cons r rs ih =>
    intro n l
    rw [show writerAlloc n (r :: rs) l =
          l.take (⌊r * (n : ℚ)⌋).toNat ::
            writerAlloc n rs (l.drop (⌊r * (n : ℚ)⌋).toNat) from rfl,
      show writerSizes (r :: rs) n =
          (⌊r * (n : ℚ)⌋).toNat :: writerSizes rs n from rfl,
      List.sum_cons, List.flatten_cons, ih n (l.drop (⌊r * (n : ℚ)⌋).toNat),
      List.take_add]

/-- Helper: when the slice sizes fit into the corpus, every destination
receives exactly its `floor(ratio * n)` entries. -/
theorem writerAlloc_lengths {α : Type} :
    ∀ (ratios : List ℚ) (n : Nat) (l : List α),
      (writerSizes ratios n).sum ≤ l.length →
      (writerAlloc n ratios l).map List.length = writerSizes ratios n := by
  intro ratios
  induction ratios with
  | nil =>
    intro n l _
    rfl
  | cons r rs ih =>
    intro n l h
    rw [show writerSizes (r :: rs) n =
        (⌊r * (n : ℚ)⌋).toNat :: writerSizes rs n from rfl, List.sum_cons] at h
    rw [show writerAlloc n (r :: rs) l =
          l.take (⌊r * (n : ℚ)⌋).toNat ::
            writerAlloc n rs (l.drop (⌊r * (n : ℚ)⌋).toNat) from rfl,
      show writerSizes (r :: rs) n =
          (⌊r * (n : ℚ)⌋).toNat :: writerSizes rs n from rfl,
      List.map_cons, List.cons.injEq]
    constructor
    · rw [List.length_take]
      omega
    · have hrec := ih n (l.drop (⌊r * (n : ℚ)⌋).toNat)
      rw [List.length_drop] at hrec
      exact hrec (by omega)

/-- C2: the splitter hands destination i exactly the next
`floor(ratio_i * N)` corpus entries in iteration order: the slices have
those lengths, their concatenation is the initial segment of the corpus
of length `sum of sizes` (so they are contiguous, in order, nothing is
duplicated and the rounding remainder is written nowhere), and on a
duplicate-free corpus the slices are pairwise disjoint. -/
theorem writer_split_slices {α : Type} (entries : List α) (ratios : List ℚ)
    (h : (writerSizes ratios entries.length).sum ≤ entries.length) :
    (writerAlloc entries.length ratios entries).map List.length =
      writerSizes ratios entries.length ∧
    (writerAlloc entries.length ratios entries).flatten =
      entries.take (writerSizes ratios entries.length).sum ∧
    (entries.Nodup →
      (writerAlloc entries.length ratios entries).Pairwise List.Disjoint) := by
  refine ⟨writerAlloc_lengths ratios entries.length entries h,
    writerAlloc_flatten ratios entries.length entries, ?_⟩
  intro hnd
  have hflat : ((writerAlloc entries.length ratios entries).flatten).Nodup := by
    rw [writerAlloc_flatten]
    exact (List.take_sublist _ _).nodup hnd
  exact (List.nodup_flatten.mp hflat).2

/-- C2 witness: with 100 entries and ratios [0.7, 0.1, 0.2] the three
destinations receive exactly 70, 10 and 20 entries, and together they
are precisely the whole corpus in order. -/
theorem writer_split_slices_witness :
    (writerSizes [7/10, 1/10, 2/10] (List.range 100).length).sum ≤
      (List.range 100).length ∧
    (writerAlloc (List.range 100).length [7/10, 1/10, 2/10] (List.range 100)).map
      List.length = [70, 10, 20] ∧
    (writerAlloc (List.range 100).length [7/10, 1/10, 2/10]
      (List.range 100)).flatten = List.range 100 := by
  have hlen : (List.range 100).length = 100 := by simp
  have hsz : writerSizes [7/10, 1/10, 2/10] 100 = [70, 10, 20] := by
    norm_num [writerSizes]
    decide
  have h := writer_split_slices (List.range 100) [7/10, 1/10, 2/10]
    (by rw [hlen, hsz]; decide)
  rw [hlen] at h ⊢
  refine ⟨by rw [hsz]; decide, h.1.trans hsz, ?_⟩
  have h2 := h.2.1
  rw [hsz, show ([70, 10, 20] : List Nat).sum = 100 from rfl,
    List.take_of_length_le (by simp)] at h2
  exact h2

/-- C3: a triplet destination emits exactly
`|top moves| * |generated negatives|` output records for one corpus
entry, where the top moves are all moves whose count equals the entry's
maximum (every tie included); in particular an entry with counts
{m1: 3, m2: 3, m3: 1} and two generated negatives yields 4 records. -/
theorem triplet_expansion_count :
    (∀ (M : Type) (anchorRep : List Nat) (pushRep : M → List Nat)
        (movesDict : List (M × Nat)) (negatives : List M),
      (tripletLines anchorRep pushRep movesDict negatives).length =
        (mostChosenMoves movesDict).length * negatives.length) ∧
    (∀ (M : Type) (movesDict : List (M × Nat)) (mv : M),
      mv ∈ mostChosenMoves movesDict ↔ (mv, maxMoveCount movesDict) ∈ movesDict) ∧
    (tripletLines [0] (fun m => [m]) [(1, 3), (2, 3), (3, 1)] [7, 8]).length = 4 ∧
    mostChosenMoves [(1, 3), (2, 3), (3, 1)] = [1, 2] := by
  refine ⟨?_, ?_, by decide, by decide⟩
  · intro M anchorRep pushRep movesDict negatives
    simp [tripletLines, List.length_flatMap, Function.comp_def, List.length_map,
      List.map_const', List.sum_replicate, smul_eq_mul, Nat.mul_comm]
  · intro M movesDict mv
    constructor
    · intro h
      obtain ⟨p, hp, hfst⟩ := List.mem_map.mp h
      obtain ⟨hmem, hcnt⟩ := List.mem_filter.mp hp
      have : p.2 = maxMoveCount movesDict := of_decide_eq_true hcnt
      rw [← hfst, ← this]
      exact hmem
    · intro h
      exact List.mem_map.mpr ⟨(mv, maxMoveCount movesDict),
        List.mem_filter.mpr ⟨h, by simp⟩, rfl⟩

/-- Helper: `BoardInfo.update` adds exactly one to the count of the
updated move and leaves every other count unchanged. -/
theorem innerCount_updateInner {M : Type} [DecidableEq M] (m m' : M) :
    ∀ info : List (M × Nat),
      innerCount m (updateInner m' info) =
        innerCount m info + (if m' = m then 1 else 0) := by
  intro info
  induction info with
  | nil =>
    by_cases h : m' = m <;> simp [updateInner, innerCount, h]
  | cons p rest ih =>
    obtain ⟨m₀, c⟩ := p
    by_cases h0 : m₀ = m'
    · subst h0
      by_cases h1 : m₀ = m
      · subst h1
        simp [updateInner, innerCount]
      · simp [updateInner, innerCount, h1]
    · by_cases h1 : m₀ = m
      · subst h1
        have h2 : ¬m' = m₀ := fun hc => h0 hc.symm
        simp [updateInner, innerCount, h0, h2]
      · simp [updateInner, innerCount, h0, h1, ih]

/-- Helper: one aggregation step adds exactly one to the count of the
observed (key, move) pair and leaves every other count unchanged. -/
theorem configCount_updateConfigs {K M : Type} [DecidableEq K] [DecidableEq M]
    (k : K) (m : M) (k' : K) (m' : M) :
    ∀ cfg : List (K × List (M × Nat)),
      configCount k m (updateConfigs k' m' cfg) =
        configCount k m cfg + (if k' = k ∧ m' = m then 1 else 0) := by
  intro cfg
  induction cfg with
  | nil =>
    by_cases hk : k' = k
    · subst hk
      by_cases hm : m' = m <;> simp [updateConfigs, configCount, innerCount, hm]
    · simp [updateConfigs, configCount, hk]
  | cons p rest ih =>
    obtain ⟨k₀, info⟩ := p
    by_cases h0 : k₀ = k'
    · subst h0
      by_cases h1 : k₀ = k
      · subst h1
        simp [updateConfigs, configCount, innerCount_updateInner]
      · simp [updateConfigs, configCount, h1]
    · by_cases h1 : k₀ = k
      · subst h1
        have h2 : ¬k' = k₀ := fun hc => h0 hc.symm
        simp [updateConfigs, configCount, h0, h2]
      · simp [updateConfigs, configCount, h0, h1, ih]

/-- Helper: after folding a stream of observations into the dictionary,
each stored count is the starting count plus the number of matching
observations. -/
theorem configCount_foldl {K M : Type} [DecidableEq K] [DecidableEq M]
    (k : K) (m : M) :
    ∀ (obs : List (K × M)) (acc : List (K × List (M × Nat))),
      configCount k m (obs.foldl (fun cfg p => updateConfigs p.1 p.2 cfg) acc) =
        configCount k m acc + countObs k m obs := by
  intro obs
  induction obs with
  | nil =>
    intro acc
    simp [countObs]
  | cons p rest ih =>
    intro acc
    obtain ⟨k', m'⟩ := p
    rw [List.foldl_cons]
    dsimp only
    rw [ih, configCount_updateConfigs]
    simp only [countObs]
    omega

/-- Helper: the pair count of a list of observations is invariant under
permutation. -/
theorem countObs_perm {K M : Type} [DecidableEq K] [DecidableEq M]
    (k : K) (m : M) {l₁ l₂ : List (K × M)} (h : l₁.Perm l₂) :
    countObs k m l₁ = countObs k m l₂ := by
  induction h with
  | nil => rfl
  | cons x _ ih =>
    obtain ⟨k', m'⟩ := x
    simp only [countObs, ih]
  | swap x y l =>
    obtain ⟨kx, mx⟩ := x
    obtain ⟨ky, my⟩ := y
    simp only [countObs]
    omega
  | trans _ _ ih1 ih2 => exact ih1.trans ih2

/-- C4: the aggregated counts are order-independent: for any permutation
of the input game files, every stored (key, move) count of the final
dictionary is the same, and it equals the total number of non-vetoed
observations of that pair across all games. -/
theorem aggregate_perm_invariant {K M : Type} [DecidableEq K] [DecidableEq M]
    (keyOf : List M → K) (filters : List (List M → M → Bool))
    (files₁ files₂ : List (List (List M))) (k : K) (m : M)
    (h : files₁.Perm files₂) :
    configCount k m (aggregateFiles keyOf filters files₁) =
      configCount k m (aggregateFiles keyOf filters files₂) ∧
    configCount k m (aggregateFiles keyOf filters files₁) =
      countObs k m
        ((files₁.flatten.map (fun g => (walkGame keyOf filters [] g).1)).flatten) := by
  have hcount : ∀ files : List (List (List M)),
      configCount k m (aggregateFiles keyOf filters files) =
        countObs k m
          ((files.flatten.map (fun g => (walkGame keyOf filters [] g).1)).flatten) := by
    intro files
    rw [show aggregateFiles keyOf filters files = aggregate
        ((files.flatten.map (fun g => (walkGame keyOf filters [] g).1)).flatten)
      from rfl, aggregate, configCount_foldl]
    simp [configCount]
  have hperm :
      ((files₁.flatten.map (fun g => (walkGame keyOf filters [] g).1)).flatten).Perm
        ((files₂.flatten.map (fun g => (walkGame keyOf filters [] g).1)).flatten) :=
    ((h.flatten.map _).flatten)
  exact ⟨(hcount files₁).trans ((countObs_perm k m hperm).trans (hcount files₂).symm),
    hcount files₁⟩

/-- C4 witness: two single-game files aggregated in both orders give the
same counts; the evaluated count of the shared pair is 2. -/
theorem aggregate_perm_invariant_witness :
    ([[[1, 2]], [[3]]] : List (List (List Nat))).Perm [[[3]], [[1, 2]]] ∧
    configCount 0 1 (aggregateFiles (fun pre => pre.sum)
      ([] : List (List Nat → Nat → Bool)) [[[1, 2]], [[3]]]) =
      configCount 0 1 (aggregateFiles (fun pre => pre.sum)
        ([] : List (List Nat → Nat → Bool)) [[[3]], [[1, 2]]]) ∧
    configCount 0 1 (aggregateFiles (fun pre => pre.sum)
      ([] : List (List Nat → Nat → Bool)) [[[1, 2]], [[3]]]) =
      countObs 0 1 (([[[1, 2]], [[3]]] : List (List (List Nat))).flatten.map
        (fun g => (walkGame (fun pre => pre.sum)
          ([] : List (List Nat → Nat → Bool)) [] g).1)).flatten := by
  have hp : ([[[1, 2]], [[3]]] : List (List (List Nat))).Perm [[[3]], [[1, 2]]] :=
    List.Perm.swap _ _ _
  have h := aggregate_perm_invariant (fun pre => pre.sum)
    ([] : List (List Nat → Nat → Bool)) [[[1, 2]], [[3]]] [[[3]], [[1, 2]]] 0 1 hp
  exact ⟨hp, h.1, h.2⟩

/-- Helper: the observations of a game walk are exactly the (position,
move) pairs of its plies that no pre-filter vetoes (the chain is
evaluated to its first match, which is what `List.any` computes), keyed
through the canonicalizer. -/
theorem walkGame_obs {M K : Type} (keyOf : List M → K)
    (filters : List (List M → M → Bool)) :
    ∀ (g pre : List M),
      (walkGame keyOf filters pre g).1 =
        ((plies pre g).filter
          (fun pm => !(filters.any (fun fl => fl pm.1 pm.2)))).map
            (fun pm => (keyOf pm.1, pm.2)) := by
  intro g
  induction g with
  | nil => intro pre; rfl
  | cons mv rest ih =>
    intro pre
    simp only [walkGame, plies, List.filter_cons]
    by_cases hv : filters.any (fun fl => fl pre mv) = true
    · simp [hv, ih]
    · simp only [Bool.not_eq_true] at hv
      simp [hv, ih]

/-- Helper: the walk visits every prefix of the game, vetoed plies
included, because the move is pushed outside the veto test. -/
theorem walkGame_visited {M K : Type} (keyOf : List M → K)
    (filters : List (List M → M → Bool)) :
    ∀ (g pre : List M),
      (walkGame keyOf filters pre g).2 =
        (List.range (g.length + 1)).map (fun i => pre ++ g.take i) := by
  intro g
  induction g with
  | nil =>
    intro pre
    simp [walkGame]
  | cons mv rest ih =>
    intro pre
    simp only [walkGame, ih, List.length_cons]
    conv_rhs => rw [List.range_succ_eq_map]
    simp [List.map_map, Function.comp_def, List.take_succ_cons]

/-- C8: a ply vetoed by the pre-filter chain contributes no (key, move)
observation but the move is still applied; hence if some filter matches
every ply of a game, the game contributes zero aggregation entries while
the walk still visits every position of the game. -/
theorem prefilter_veto_semantics {M K : Type} (keyOf : List M → K)
    (filters : List (List M → M → Bool)) (g : List M)
    (hveto : ∀ pm ∈ plies ([] : List M) g,
      filters.any (fun fl => fl pm.1 pm.2) = true) :
    (walkGame keyOf filters [] g).1 = [] ∧
    (walkGame keyOf filters [] g).2 =
      (List.range (g.length + 1)).map (fun i => g.take i) := by
  constructor
  · rw [walkGame_obs]
    have hfil : (plies ([] : List M) g).filter
        (fun pm => !(filters.any (fun fl => fl pm.1 pm.2))) = [] :=
      List.filter_eq_nil_iff.mpr (fun pm hpm => by simp [hveto pm hpm])
    rw [hfil]
    rfl
  · rw [walkGame_visited]
    simp

/-- C8 witness: a filter chain whose single filter vetoes everything,
run on the two-ply game [1, 2]: no observation is produced, yet the walk
visits the empty prefix, [1] and [1, 2]. -/
theorem prefilter_veto_semantics_witness :
    (plies ([] : List Nat) [1, 2]).all
      (fun pm => ([fun _ _ => true] : List (List Nat → Nat → Bool)).any
        (fun fl => fl pm.1 pm.2)) = true ∧
    (walkGame (fun pre => pre.sum)
      ([fun _ _ => true] : List (List Nat → Nat → Bool)) [] [1, 2]).1 = [] ∧
    (walkGame (fun pre => pre.sum)
      ([fun _ _ => true] : List (List Nat → Nat → Bool)) [] [1, 2]).2 =
      (List.range ([1, 2].length + 1)).map (fun i => [1, 2].take i) := by
  have hv : ∀ pm ∈ plies ([] : List Nat) [1, 2],
      ([fun _ _ => true] : List (List Nat → Nat → Bool)).any
        (fun fl => fl pm.1 pm.2) = true := by decide
  have h := prefilter_veto_semantics (fun pre => pre.sum)
    ([fun _ _ => true] : List (List Nat → Nat → Bool)) [1, 2] hv
  exact ⟨by decide, h.1, h.2⟩

/-- Helper: when the score sequence has exactly `prev + sum of counts`
elements, splitting it at the cumulative boundaries recorded from `prev`
produces one slice per count, of exactly those lengths, in order. -/
theorem npSplitAux_lengths {α : Type} :
    ∀ (counts : List Nat) (prev : Nat) (xs : List α), counts ≠ [] →
      xs.length = prev + counts.sum →
      (npSplitAux xs prev ((cumsumFrom prev counts).dropLast)).map List.length =
        counts := by
  intro counts
  induction counts with
  | nil =>
    intro prev xs hne _
    exact absurd rfl hne
  | cons c rest ih =>
    intro prev xs _ hlen
    rw [List.sum_cons] at hlen
    rw [show cumsumFrom prev (c :: rest) = (prev + c) :: cumsumFrom (prev + c) rest
      from rfl]
    cases rest with
    | nil =>
      rw [show (((prev + c) :: cumsumFrom (prev + c) []) : List Nat).dropLast = []
        from rfl]
      rw [show npSplitAux xs prev ([] : List Nat) = [xs.drop prev] from rfl]
      rw [List.sum_nil] at hlen
      simp only [List.map_cons, List.map_nil, List.length_drop, List.cons.injEq,
        and_true]
      omega
    | cons c' rest' =>
      rw [show (((prev + c) :: cumsumFrom (prev + c) (c' :: rest')) : List Nat).dropLast
          = (prev + c) :: (cumsumFrom (prev + c) (c' :: rest')).dropLast from rfl]
      rw [show npSplitAux xs prev
            ((prev + c) :: (cumsumFrom (prev + c) (c' :: rest')).dropLast) =
          (xs.take (prev + c)).drop prev ::
            npSplitAux xs (prev + c) ((cumsumFrom (prev + c) (c' :: rest')).dropLast)
        from rfl]
      rw [List.map_cons, List.cons.injEq]
      constructor
      · rw [List.length_drop, List.length_take]
        have hsum : 0 ≤ (c' :: rest').sum := Nat.zero_le _
        omega
      · exact ih (prev + c) xs (by simp) (by rw [List.sum_cons] at hlen ⊢; omega)

/-- C5 counterexample: with per-line legal-move counts [3, 0, 2] the
pipeline submits 5 children, but when the evaluator returns only 4
scores nothing fails: `np.split` silently cuts the short sequence at the
recorded boundaries and the last line ends up with a 1-element slice
instead of its 2 scores. -/
theorem score_mismatch_counterexample :
    (childPositions (fun b => if b = 0 then [0, 1, 2] else if b = 1 then [] else [0, 1])
      (fun b m => 10 * b + m) [0, 1, 2]).length = 5 ∧
    moveCounts (fun b => if b = 0 then [0, 1, 2] else if b = 1 then [] else [0, 1])
      [0, 1, 2] = [3, 0, 2] ∧
    (scoreSlices [9, 9, 9, 9]
      (moveCounts (fun b => if b = 0 then [0, 1, 2] else if b = 1 then [] else [0, 1])
        [0, 1, 2])).map List.length = [3, 0, 1] ∧
    ([3, 0, 1] : List Nat) ≠ [3, 0, 2] := by
  decide

/-- C5 (amended): the code performs no score-count validation (a
mismatched score sequence is silently split at the recorded boundaries,
see the counterexample); when the evaluator returns exactly one score
per submitted child, splitting the flat sequence at the cumulative
boundaries yields per-source-line slices whose lengths equal each
line's legal-move count, in original line order. -/
theorem score_split_lengths {B Mv C S : Type} (legalMoves : B → List Mv)
    (push : B → Mv → C) (evalFn : List C → List S) (boards : List B)
    (hb : boards ≠ [])
    (hlen : (evalFn (childPositions legalMoves push boards)).length =
      (moveCounts legalMoves boards).sum) :
    (childPositions legalMoves push boards).length =
      (moveCounts legalMoves boards).sum ∧
    (scoreSlices (evalFn (childPositions legalMoves push boards))
      (moveCounts legalMoves boards)).map List.length =
        moveCounts legalMoves boards := by
  constructor
  · simp [childPositions, List.length_flatten, List.map_map, Function.comp_def,
      List.length_map, moveCounts]
  · rw [scoreSlices, npSplit]
    apply npSplitAux_lengths (moveCounts legalMoves boards) 0
      (evalFn (childPositions legalMoves push boards))
    · intro hc
      exact hb (List.map_eq_nil_iff.mp hc)
    · omega

/-- C5 witness: line counts [3, 0, 2] with an evaluator returning
exactly 5 scores: the slices have lengths [3, 0, 2] in order. -/
theorem score_split_lengths_witness :
    ([0, 1, 2] : List Nat) ≠ [] ∧
    ((fun _ => ([9, 8, 7, 6, 5] : List Nat))
      (childPositions
        (fun b => if b = 0 then [0, 1, 2] else if b = 1 then [] else [0, 1])
        (fun b m => 10 * b + m) [0, 1, 2])).length =
      (moveCounts (fun b => if b = 0 then [0, 1, 2] else if b = 1 then [] else [0, 1])
        [0, 1, 2]).sum ∧
    (scoreSlices
      ((fun _ => ([9, 8, 7, 6, 5] : List Nat))
        (childPositions
          (fun b => if b = 0 then [0, 1, 2] else if b = 1 then [] else [0, 1])
          (fun b m => 10 * b + m) [0, 1, 2]))
      (moveCounts (fun b => if b = 0 then [0, 1, 2] else if b = 1 then [] else [0, 1])
        [0, 1, 2])).map List.length = [3, 0, 2] := by
  have h := score_split_lengths
    (fun b => if b = 0 then [0, 1, 2] else if b = 1 then [] else [0, 1])
    (fun b m => 10 * b + m) (fun _ => ([9, 8, 7, 6, 5] : List Nat)) [0, 1, 2]
    (by decide) (by decide)
  exact ⟨by decide, by decide, h.2.trans (by decide)⟩

set_option maxRecDepth 4000 in
/-- C6: the submission loop only submits when
`index % batch_size == 0 and index != 0`, so a 5-line file submits no
batch at all (all 5 lines are dropped, producing zero records instead
of five), and a 202-line file submits a single 201-line batch, dropping
the final line. -/
theorem submit_loop_drops_tail :
    submittedBatches 200 (List.range 5) = [] ∧
    (submittedBatches 200 (List.range 202)).map List.length = [201] ∧
    (submittedBatches 200 (List.range 202)).flatten = List.range 201 := by
  refine ⟨by decide, by decide, by decide⟩

/-- Helper: starting from a counter `k ≤ n`, the material filter loop
returns true exactly when `k` plus the number of piece characters stays
within `n`. -/
theorem nManFilterLoop_le (n : Nat) :
    ∀ (s : List Nat) (k : Nat), k ≤ n →
      nManFilterLoop n s k = decide (k + pieceCount s ≤ n) := by
  intro s
  induction s with
  | nil =>
    intro k hk
    simp [nManFilterLoop, pieceCount, hk]
  | cons c rest ih =>
    intro k hk
    simp only [nManFilterLoop]
    by_cases hc : c ∈ pieceChars
    · rw [if_pos hc, show pieceCount (c :: rest) = pieceCount rest + 1 from by
        simp [pieceCount, List.filter_cons, hc]]
      by_cases hk1 : k + 1 > n
      · rw [if_pos hk1]
        have hgt : ¬(k + (pieceCount rest + 1) ≤ n) := by omega
        simp [hgt]
      · rw [if_neg hk1, ih (k + 1) (by omega), decide_eq_decide]
        omega
    · rw [if_neg hc, show pieceCount (c :: rest) = pieceCount rest from by
        simp [pieceCount, List.filter_cons, hc], ih k hk]

/-- C7: the post-collection material filter is inverted with respect to
both the claim and its own docstring: it returns true exactly when the
piece count is at most n (so small-piece entries get deleted), and false
when the count exceeds n; the key "KQR" with n = 2 has 3 piece
characters yet the filter returns false. -/
theorem n_man_filter_inverted :
    (∀ (n : Nat) (s : List Nat), n_man_filter n s = decide (pieceCount s ≤ n)) ∧
    n_man_filter 2 [75, 81, 82] = false ∧ pieceCount [75, 81, 82] = 3 ∧
    n_man_filter 2 [75] = true ∧ pieceCount [75] = 1 := by
  refine ⟨?_, by decide, by decide, by decide, by decide⟩
  intro n s
  rw [n_man_filter, nManFilterLoop_le n s 0 (Nat.zero_le n), decide_eq_decide]
  omega
